import Mathlib

/-!
Verification of the ember-changeset buffered store (`EmberChangeset`): a shallow
embedding of the addon's source (the `EmberChangeset` class with its `get`,
`execute`, error and notification overrides, the `changeset` factory and the
transparent `Proxy` wrappers) over an explicit model of JavaScript values.

JavaScript objects are modelled as ordered association lists of string keys;
the `Change` wrapper of the underlying validated-changeset library is a
distinguished constructor.  Utilities of the repository whose files are not in
the provided sources (`mergeDeep`, `isBelongsToRelationship`,
`isLeafInChanges`) and the buffered base-class behaviour (`normalizeObject`,
change/error storage, `isValid` / `isDirty`) are modelled from the
specification; each such definition is marked `Modelled from the spec:`.
-/

namespace EmberChangesetModel

mutual
/-- A JavaScript runtime value, as far as the changeset core observes it:
`undef` is `undefined`, `fn` stands for any function value (only its
`typeof` matters to the code under study), `change v` is an instance of the
validated-changeset `Change` wrapper holding `v`, and `obj` is an ordinary
object given by its ordered own enumerable string-keyed fields. -/
inductive JSValue where
  | undef
  | null
  | bool (b : Bool)
  | num (n : Int)
  | str (s : String)
  | fn
  | arr (elems : List JSValue)
  | obj (fields : JSFields)
  | change (v : JSValue)

/-- The ordered own enumerable fields of a JavaScript object. -/
inductive JSFields where
  | nil
  | cons (k : String) (v : JSValue) (rest : JSFields)
end

mutual
/-- Structural Boolean equality on modelled values (stands in for a derived
decidable equality, which Lean does not derive for mutual inductives). -/
def JSValue.beq : JSValue → JSValue → Bool
  | .undef, .undef => true
  | .null, .null => true
  | .bool a, .bool b => a == b
  | .num a, .num b => a == b
  | .str a, .str b => a == b
  | .fn, .fn => true
  | .arr xs, .arr ys => JSValue.beqList xs ys
  | .obj fs, .obj gs => JSFields.beq fs gs
  | .change v, .change w => JSValue.beq v w
  | _, _ => false

/-- Elementwise `JSValue.beq` on lists. -/
def JSValue.beqList : List JSValue → List JSValue → Bool
  | [], [] => true
  | x :: xs, y :: ys => JSValue.beq x y && JSValue.beqList xs ys
  | _, _ => false

/-- Fieldwise `JSValue.beq`. -/
def JSFields.beq : JSFields → JSFields → Bool
  | .nil, .nil => true
  | .cons k v r, .cons k2 v2 r2 => k == k2 && JSValue.beq v v2 && JSFields.beq r r2
  | _, _ => false
end

instance : Inhabited JSValue := ⟨JSValue.undef⟩

instance : Inhabited JSFields := ⟨JSFields.nil⟩

/-- `Object.prototype.hasOwnProperty.call(o, k)` on the fields of `o`. -/
def JSFields.hasKey : JSFields → String → Bool
  | .nil, _ => false
  | .cons k _ rest, key => k = key || rest.hasKey key

/-- First field bound to `key`, if any (JavaScript objects built by the code
keep keys unique, so "first" is "the" binding there). -/
def JSFields.find : JSFields → String → Option JSValue
  | .nil, _ => none
  | .cons k v rest, key => if k = key then some v else rest.find key

/-- JavaScript property assignment `o[key] = v` on a field list: overwrite the
existing binding in place, else append a new one (insertion order preserved,
as JS enumeration order does). -/
def JSFields.set : JSFields → String → JSValue → JSFields
  | .nil, key, v => .cons key v .nil
  | .cons k w rest, key, v =>
      if k = key then .cons k v rest else .cons k w (rest.set key v)

/-- `Object.keys` on a field list. -/
def JSFields.keys : JSFields → List String
  | .nil => []
  | .cons k _ rest => k :: rest.keys

/-- `delete o[key]` on a field list: drop every binding of `key`. -/
def JSFields.erase : JSFields → String → JSFields
  | .nil, _ => .nil
  | .cons k v rest, key =>
      if k = key then rest.erase key else .cons k v (rest.erase key)

/-- The own enumerable fields of a value: an object's field list; every other
value (including a `Change` instance, which stores its payload under a
symbol) spreads to nothing. -/
def JSValue.fieldsOf : JSValue → JSFields
  | .obj fs => fs
  | _ => .nil

/-- `Object.prototype.hasOwnProperty.call(v, k)` as the source uses it. -/
def hasOwnProperty (v : JSValue) (key : String) : Bool :=
  v.fieldsOf.hasKey key

/-- Plain single-step property read `v[key]`: a missing or non-object base
yields `undefined`. -/
def getProp (v : JSValue) (key : String) : JSValue :=
  (v.fieldsOf.find key).getD (.undef)

/-- Property assignment `v[key] = w`: only object bases are updated (writing a
property of a primitive is silently dropped, as in sloppy-mode JS). -/
def setProp (v : JSValue) (key : String) (w : JSValue) : JSValue :=
  match v with
  | .obj fs => .obj (fs.set key w)
  | other => other

/-- `Object.keys v` (non-objects have none). -/
def objKeys (v : JSValue) : List String := v.fieldsOf.keys

/-- JavaScript truthiness of a modelled value. -/
def truthy : JSValue → Bool
  | .undef => false
  | .null => false
  | .bool b => b
  | .num n => n != 0
  | .str s => s ≠ ""
  | .fn => true
  | .arr _ => true
  | .obj _ => true
  | .change _ => true

/-- The addon's `isObject` utility (`addon/utils/is-object.js`): not `null`,
not a `Date`, not an array, and of object type — which a `Change` instance
is. -/
def isObject : JSValue → Bool
  | .obj _ => true
  | .change _ => true
  | _ => false

/-- `Array.isArray`. -/
def isArr : JSValue → Bool
  | .arr _ => true
  | _ => false

/-- `typeof v !== 'undefined'` is just `v ≠ undef` in the model. -/
def emptyObj : JSValue := .obj .nil

/-- The dot-splitting `key.split('.')` of the source, done characterwise. -/
def splitDotsAux : List Char → List Char → List (List Char)
  | [], acc => [acc.reverse]
  | c :: rest, acc =>
      if c = '.' then acc.reverse :: splitDotsAux rest []
      else splitDotsAux rest (c :: acc)

/-- `key.split('.')` : always returns at least one (possibly empty) segment. -/
def splitDots (s : String) : List String :=
  (splitDotsAux s.toList []).map fun cs => String.mk cs

/-- `segments.join('.')`. -/
def joinDots : List String → String
  | [] => ""
  | [s] => s
  | s :: rest => s ++ "." ++ joinDots rest

/-- The Ember `get(obj, path)` accessor (`safeGet` / `getDeep` in the source):
split the path on dots and walk plain property reads, yielding `undefined` as
soon as a step has no value. -/
def safeGetPath (v : JSValue) (path : String) : JSValue :=
  (splitDots path).foldl getProp v

/-- `v instanceof Change`. -/
def isChange : JSValue → Bool
  | .change _ => true
  | _ => false

/-- The payload of a `Change` wrapper (`getChangeValue`); identity elsewhere. -/
def getChangeValue : JSValue → JSValue
  | .change v => v
  | v => v

mutual
/-- Modelled from the spec: `normalizeObject` of the validated-changeset base
library (its file is not among the provided sources) — "normalize an internal
change-wrapper value down to its plain stored value": a `Change` at the top
is unwrapped one level, and inside an object tree every field that is a
`Change` is replaced by its payload while nested plain objects are normalized
recursively; all other values pass through. -/
def normalizeObject : JSValue → JSValue
  | .change v => v
  | .obj fs => .obj (normalizeFields fs)
  | v => v

/-- Fieldwise worker for `normalizeObject`. -/
def normalizeFields : JSFields → JSFields
  | .nil => .nil
  | .cons k v rest => .cons k (normalizeObject v) (normalizeFields rest)
end

/-- Modelled from the spec: `isLeafInChanges` (`addon/utils/is-leaf.js` is not
among the provided sources) — "detect whether a dotted key path is already a
terminal (leaf) entry directly present in the changes map": walk the changes
tree along the path segments; the path is a leaf change exactly when the walk
ends on a `Change` wrapper. -/
def isLeafInChanges (key : String) (changes : JSValue) : Bool :=
  go (splitDots key) changes
where
  go : List String → JSValue → Bool
    | [], v => isChange v
    | k :: rest, .obj fs =>
        match fs.find k with
        | some v => go rest v
        | none => false
    | _ :: _, _ => false

/-- Modelled from the spec: `isBelongsToRelationship`
(`addon/utils/is-belongs-to-relationship.js` is not among the provided
sources) — "detect whether a resolved sub-object represents a one-to-one
relationship placeholder (which must not be deep-merged with siblings)".  The
tag is modelled as the presence of a distinguished marker field on the
object. -/
def isBelongsToRelationship : JSValue → Bool
  | .obj fs => fs.hasKey "belongsToRelationship"
  | _ => false

mutual
/-- Modelled from the spec: `mergeDeep` (`addon/utils/merge-deep.js` is not
among the provided sources) — "for every enumerable key in source: if both
destination[key] and source[key] are plain mergeable objects, recurse;
otherwise set destination[key] = source[key] directly (primitives, arrays,
and objects with no matching destination counterpart are overwritten
wholesale, not merged); returns the mutated destination; arrays are atomic
values for merge purposes". -/
def mergeDeep (dest : JSValue) : JSValue → JSValue
  | .obj sfs => mergeFields dest sfs
  | _ => dest

/-- Left-to-right pass of `mergeDeep` over the source's fields. -/
def mergeFields (dest : JSValue) : JSFields → JSValue
  | .nil => dest
  | .cons k sv rest =>
      let dv := getProp dest k
      let newv := if isObject dv && isObject sv then mergeDeep dv sv else sv
      mergeFields (setProp dest k newv) rest
end

/-- An externally supplied validator: receives path, new value, old value and
returns `true` (the JS literal) on pass, anything else being an error
description. -/
def Validator : Type := String → JSValue → JSValue → JSValue

/-- The always-passing `defaultValidatorFn` of the source. -/
def defaultValidatorFn : Validator := fun _ _ _ => .bool true

/-- The buffered store (`EmberChangeset`): the three tracked maps `_changes`,
`_errors`, `_content` of the source, plus the validator it was constructed
with. -/
structure EmberChangeset where
  validateFn : Validator
  _changes : JSValue
  _errors : JSValue
  _content : JSValue

/-- Modelled from the spec: the base class getter `isValid` — "the Errors map
is empty". -/
def EmberChangeset.isValid (s : EmberChangeset) : Bool :=
  (objKeys s._errors).isEmpty

/-- Modelled from the spec: the base class getter `isDirty` — "the Changes map
is non-empty". -/
def EmberChangeset.isDirty (s : EmberChangeset) : Bool :=
  !(objKeys s._changes).isEmpty

/-- `execute()` of the source: when both `isValid` and `isDirty` hold, replace
`_content` by the deep merge of `_content` with `_changes`; in every case the
method returns `this`, modelled by returning the (possibly updated) store. -/
def EmberChangeset.execute (s : EmberChangeset) : EmberChangeset :=
  if s.isValid && s.isDirty then
    { s with _content := mergeDeep s._content s._changes }
  else
    s

/-- The property names the store instance itself exposes: the methods and
fields declared on the `EmberChangeset` class in the source.  (Accessors
inherited from the external base class are modelled separately in
`instanceProp`; properties of `Object.prototype` are outside the model.) -/
def memberNames : List String :=
  ["getDeep", "safeGet", "safeSet", "addError", "pushErrors", "_setProperty",
   "_notifyVirtualProperties", "_deleteKey", "execute", "get"]

/-- `this[k]` on the store instance: the three tracked maps, the class's own
methods (function values), and — modelled from the spec — the base class
gating getters `isValid` and `isDirty`; anything else is `undefined`. -/
def instanceProp (s : EmberChangeset) (k : String) : JSValue :=
  if k = "_changes" then s._changes
  else if k = "_errors" then s._errors
  else if k = "_content" then s._content
  else if memberNames.contains k then .fn
  else if k = "isValid" then .bool s.isValid
  else if k = "isDirty" then .bool s.isDirty
  else (.undef)

/-- `typeof v === 'undefined'`. -/
def isUndef : JSValue → Bool
  | .undef => true
  | _ => false

/-- `v === null`. -/
def isNull : JSValue → Bool
  | .null => true
  | _ => false

/-- JavaScript object spread `{...a, ...b}` on field lists: start from `a`'s
bindings and assign each of `b`'s over them in order. -/
def JSFields.assign (base : JSFields) : JSFields → JSFields
  | .nil => base
  | .cons k v rest => (base.set k v).assign rest

/-- The sibling-merge loop of `get` (source lines 176–191): start from the
candidate's own keys (`Object.assign({}, result)`), then for every key of
Content's sub-object either shallow-spread two plain objects (candidate's
keys win) or, when the candidate lacks the key, fall back to the content
value. -/
def mergeSiblings (content : JSValue) (key : String) (r : JSValue)
    (netKeys : List String) : JSFields :=
  netKeys.foldl
    (fun data k =>
      let inResult := getProp r k
      let contentData := safeGetPath content (key ++ "." ++ k)
      if isObject contentData && isObject inResult then
        data.set k (.obj (contentData.fieldsOf.assign inResult.fieldsOf))
      else if isUndef inResult then data.set k contentData
      else data)
    r.fieldsOf

/-- Steps 2 and 3 of `get` (source lines 205–218): first a defined property of
the store instance itself at the full key; else, if the base key resolves to
a truthy instance property that is a plain object, a deep read of the rest of
the path off it; else the deep read of `_content` at the full key. -/
def getFallthrough (s : EmberChangeset) (key baseKey : String)
    (remaining : List String) : JSValue :=
  if !isUndef (instanceProp s key) then instanceProp s key
  else
    let v := instanceProp s baseKey
    if truthy v && isObject v then safeGetPath v (joinDots remaining)
    else safeGetPath s._content key

/-- Source lines 150–201: what `get` does with the candidate resolved from the
changes map — normalize it, possibly synthesize the sibling merge with
Content's sub-object, return an error-record's `.value` for a truthy
non-object candidate, or fall through. -/
def afterResult (s : EmberChangeset) (key baseKey : String)
    (remaining : List String) (result : JSValue) : JSValue :=
  if !isUndef result && !isNull result && isObject result then
    let r := normalizeObject result
    let contentAtLeaf := safeGetPath s._content key
    if !isArr r && isObject contentAtLeaf &&
        !isBelongsToRelationship contentAtLeaf &&
        !isLeafInChanges key s._changes then
      let netKeys := objKeys contentAtLeaf
      if netKeys.isEmpty then r
      else .obj (mergeSiblings s._content key r netKeys)
    else r
  else if truthy result then getProp result "value"
  else getFallthrough s key baseKey remaining

/-- Source lines 136–202: the branch of `get` taken when the changes map has
an own entry for the base key, including the early return of a defined
non-object deep read off the normalized sub-tree (lines 143–145). -/
def changesBranch (s : EmberChangeset) (key baseKey : String)
    (remaining : List String) : JSValue :=
  if remaining.length > 0 then
    let c := getProp s._changes baseKey
    let result := safeGetPath (normalizeObject c) (joinDots remaining)
    if !isUndef result && !isObject result then result
    else afterResult s key baseKey remaining result
  else afterResult s key baseKey remaining (getProp s._changes baseKey)

/-- The proxied getter `get(key)` of the source (lines 130–219). -/
def EmberChangeset.get (s : EmberChangeset) (key : String) : JSValue :=
  let parts := splitDots key
  let baseKey := parts.headD ""
  let remaining := parts.tail
  if hasOwnProperty s._changes baseKey then changesBranch s key baseKey remaining
  else getFallthrough s key baseKey remaining

/-- The candidate value `get` resolves from the changes map before deciding
how to return it (the `result` of source lines 140–148). -/
def candidateOf (s : EmberChangeset) (key : String) : JSValue :=
  let parts := splitDots key
  let baseKey := parts.headD ""
  let remaining := parts.tail
  if remaining.length > 0 then
    safeGetPath (normalizeObject (getProp s._changes baseKey)) (joinDots remaining)
  else getProp s._changes baseKey

/-- Modelled from the spec: recording a change — "store the value into Changes
at `path`, creating/merging the intermediate nested-object skeleton as
needed", the stored leaf being a `Change` wrapper. -/
def setPathSegs (v : JSValue) : List String → JSValue → JSValue
  | [], leaf => leaf
  | [k], leaf => setProp v k leaf
  | k :: k2 :: rest, leaf =>
      let child :=
        match getProp v k with
        | .obj fs => JSValue.obj fs
        | _ => emptyObj
      setProp v k (setPathSegs child (k2 :: rest) leaf)

/-- Modelled from the spec: the base class `set(path, value)` — validate with
the externally supplied validator; on pass record the change and remove any
existing error at the path; on fail store an error record holding the
attempted value and the validation output. -/
def EmberChangeset.set (s : EmberChangeset) (key : String) (value : JSValue) :
    EmberChangeset :=
  let oldValue := safeGetPath s._content key
  let res := s.validateFn key value oldValue
  if JSValue.beq res (.bool true) then
    { s with
      _changes := setPathSegs s._changes (splitDots key) (.change value)
      _errors := .obj (s._errors.fieldsOf.erase key) }
  else
    { s with
      _errors := setProp s._errors key
        (.obj (.cons "value" value (.cons "validation" res .nil))) }

/-- Modelled from the spec: the storage part of `super._setProperty` — record
the change for `key` and clear a former error at `key`. -/
def baseSetProperty (key : String) (value : JSValue) (s : EmberChangeset) :
    EmberChangeset :=
  { s with
    _changes := setPathSegs s._changes (splitDots key) (.change value)
    _errors := .obj (s._errors.fieldsOf.erase key) }

/-- Modelled from the spec: the storage part of `super.addError` — overwrite
the error entry for `key`. -/
def baseAddError (key : String) (err : JSValue) (s : EmberChangeset) :
    EmberChangeset :=
  { s with _errors := setProp s._errors key err }

/-- Modelled from the spec: the storage part of `super.pushErrors` — store for
`key` an error record pairing the current value with the pushed validation
messages. -/
def basePushErrors (key : String) (newErrors : List JSValue)
    (s : EmberChangeset) : EmberChangeset :=
  { s with
    _errors := setProp s._errors key
      (.obj (.cons "value" (safeGetPath s._content key)
        (.cons "validation" (.arr newErrors) .nil))) }

/-- Modelled from the spec: the storage part of `super._deleteKey` — remove
`key` from the internal map named `objName`. -/
def baseDeleteKey (objName key : String) (s : EmberChangeset) :
    EmberChangeset :=
  if objName = "_changes" then
    { s with _changes := .obj (s._changes.fieldsOf.erase key) }
  else if objName = "_errors" then
    { s with _errors := .obj (s._errors.fieldsOf.erase key) }
  else s

/-- Construction options: `options.changeset` lets the caller substitute a
different store implementation class; the substitute receives the same
content, validator and validation map the factory was given. -/
structure ChangesetOpts where
  altChangeset : Option (JSValue → Validator → JSValue → EmberChangeset)

/-- The `changeset` factory of the source: two synchronous assertions (content
must be truthy; content must not be an array), then either the substituted
implementation from `options.changeset` or a fresh `EmberChangeset` —
modelled from the spec for the base constructor: "Changes/Errors start empty
at construction".  An assertion failure is modelled as `Except.error` with
the assertion's message. -/
def changeset (obj : JSValue) (validateFn : Validator) (validationMap : JSValue)
    (opts : ChangesetOpts) : Except String EmberChangeset :=
  if !truthy obj then .error "Underlying object for changeset is missing"
  else if isArr obj then
    .error "Array is not a valid type to pass as the first argument to changeset"
  else
    match opts.altChangeset with
    | some mk => .ok (mk obj validateFn validationMap)
    | none =>
        .ok { validateFn := validateFn, _changes := emptyObj,
              _errors := emptyObj, _content := obj }

/-- A JavaScript property key as seen by a proxy trap (string or number; a
number is stringified by `key.toString()`). -/
inductive PropKey where
  | strK (s : String)
  | numK (n : Nat)

/-- `key.toString()`. -/
def PropKey.toStr : PropKey → String
  | .strK s => s
  | .numK n => toString n

/-- The transparent wrapper returned by `Changeset` / `ChangesetKlass`: a
`Proxy` whose traps close over the underlying buffered store. -/
structure ProxyWrapper where
  target : EmberChangeset

/-- The `get` trap of the proxy (source lines 255–258): return
`targetBuffer.get(key.toString())`. -/
def proxyGetTrap (p : ProxyWrapper) (key : PropKey) : JSValue :=
  p.target.get key.toStr

/-- The `set` trap of the proxy (source lines 260–263): forward to
`targetBuffer.set(key.toString(), value)` and unconditionally report `true`
(the trap's return value) to the runtime. -/
def proxySetTrap (p : ProxyWrapper) (key : PropKey) (value : JSValue) :
    ProxyWrapper × Bool :=
  (⟨p.target.set key.toStr value⟩, true)

/-- The `Changeset` function of the source: the factory's result wrapped in
the transparent proxy. -/
def Changeset (obj : JSValue) (validateFn : Validator) (validationMap : JSValue)
    (opts : ChangesetOpts) : Except String ProxyWrapper :=
  (changeset obj validateFn validationMap opts).map fun c => ⟨c⟩

/-- One step of a mutating operation: either a storage mutation or an
observer notification (`notifyPropertyChange(this, key)`) for a key. -/
inductive Step where
  | mutate (f : EmberChangeset → EmberChangeset)
  | notify (key : String)

/-- Whether a step is a storage mutation. -/
def Step.isMutate : Step → Bool
  | .mutate _ => true
  | .notify _ => false

/-- Run a sequence of steps from a starting store, also recording, for each
notification, the store state the notified observer gets to see at that
moment. -/
def runSteps : EmberChangeset → List Step → EmberChangeset × List (String × EmberChangeset)
  | s, [] => (s, [])
  | s, .mutate f :: rest => runSteps (f s) rest
  | s, .notify k :: rest =>
      let (fin, obs) := runSteps s rest
      (fin, (k, s) :: obs)

/-- All storage mutations form a prefix of the step list: no mutation occurs
after the first notification. -/
def stepsOrdered (l : List Step) : Bool :=
  (l.dropWhile Step.isMutate).all fun st => !st.isMutate

/-- `_setProperty` of the source (lines 70–76): the base-class storage
mutation, then notification of the aggregate changes key, then of `key`. -/
def setPropertySteps (key : String) (value : JSValue) : List Step :=
  [.mutate (baseSetProperty key value), .notify "_changes", .notify key]

/-- `addError` of the source (lines 41–50): the base-class storage mutation,
then notification of the aggregate errors key, then of `key`. -/
def addErrorSteps (key : String) (err : JSValue) : List Step :=
  [.mutate (baseAddError key err), .notify "_errors", .notify key]

/-- `pushErrors` of the source (lines 57–64): the base-class storage mutation,
then notification of the aggregate errors key, then of `key`. -/
def pushErrorsSteps (key : String) (errs : List JSValue) : List Step :=
  [.mutate (basePushErrors key errs), .notify "_errors", .notify key]

/-- `_deleteKey` of the source (lines 97–104): the base-class storage
mutation, then notification of the dotted `objName.key` combination, then of
`objName`. -/
def deleteKeySteps (objName key : String) : List Step :=
  [.mutate (baseDeleteKey objName key),
   .notify (objName ++ "." ++ key), .notify objName]

mutual
/-- Well-formedness of a modelled JavaScript value: object field lists bind
each key at most once (true of every object a JavaScript runtime can build),
recursively. -/
def wfVal : JSValue → Bool
  | .obj fs => wfFields fs
  | .arr xs => wfList xs
  | .change v => wfVal v
  | _ => true

/-- Elementwise `wfVal`. -/
def wfList : List JSValue → Bool
  | [] => true
  | x :: xs => wfVal x && wfList xs

/-- Keys pairwise distinct and values well-formed. -/
def wfFields : JSFields → Bool
  | .nil => true
  | .cons k v rest => !rest.hasKey k && wfVal v && wfFields rest
end

/-- A plain object (not an array, not a `Change` wrapper, not a primitive). -/
def isPlainObj : JSValue → Bool
  | .obj _ => true
  | _ => false

/-- Every entry of a field list is already bound, with the same value, in the
value `d` — the invariant behind merging an object into itself. -/
def EntriesMatch : JSFields → JSValue → Prop
  | .nil, _ => True
  | .cons k sv rest, d =>
      hasOwnProperty d k = true ∧ getProp d k = sv ∧ EntriesMatch rest d

/-- Content of the running sibling-merge example: `user` before any edit. -/
def userObjA : JSValue :=
  .obj (.cons "name" (.str "A") (.cons "email" (.str "a@x.com") .nil))

/-- Store with Content `user = (name A, email a@x.com)` after a successful
`set('user.name', 'B')` (the spec's §3 shape for the resulting Changes). -/
def ex3 : EmberChangeset :=
  { validateFn := defaultValidatorFn,
    _changes := .obj (.cons "user" (.obj (.cons "name" (.change (.str "B")) .nil)) .nil),
    _errors := emptyObj,
    _content := .obj (.cons "user" userObjA .nil) }

/-- A valid, dirty store: one pending leaf change, no errors. -/
def exDirty : EmberChangeset :=
  { validateFn := defaultValidatorFn,
    _changes := .obj (.cons "a" (.change (.num 1)) .nil),
    _errors := emptyObj,
    _content := .obj (.cons "a" (.num 0) .nil) }

/-- The same store with a pending error, so `isValid` fails. -/
def exInvalid : EmberChangeset :=
  { exDirty with
    _errors := .obj (.cons "a"
      (.obj (.cons "value" (.num 1) (.cons "validation" (.str "bad") .nil))) .nil) }

/-- Store whose Content has a one-to-one-relationship placeholder at `owner`
(marker field set) with internal fields, and a pending change of `owner.id`
only. -/
def exRel : EmberChangeset :=
  { validateFn := defaultValidatorFn,
    _changes := .obj (.cons "owner" (.obj (.cons "id" (.change (.num 2)) .nil)) .nil),
    _errors := emptyObj,
    _content := .obj (.cons "owner"
      (.obj (.cons "belongsToRelationship" (.bool true)
        (.cons "id" (.num 1) (.cons "secret" (.num 9) .nil)))) .nil) }

/-- Store with no pending change and no error whose Content happens to use the
name of a store method (`execute`) as a data key. -/
def exC5 : EmberChangeset :=
  { validateFn := defaultValidatorFn, _changes := emptyObj, _errors := emptyObj,
    _content := .obj (.cons "execute" (.num 42) .nil) }

/-- Store with no pending change and no error at an ordinary data key. -/
def exC5w : EmberChangeset :=
  { validateFn := defaultValidatorFn, _changes := emptyObj, _errors := emptyObj,
    _content := .obj (.cons "age" (.num 10) .nil) }

/-- An error record as stored by the buffered store. -/
def errRecord : JSValue :=
  .obj (.cons "value" (.str "E") (.cons "validation" (.str "bad") .nil))

/-- Store where `user.name` has the staged change `null` (falsy, defined) and
an error record exists at `user.name`. -/
def exC6 : EmberChangeset :=
  { validateFn := defaultValidatorFn,
    _changes := .obj (.cons "user" (.obj (.cons "name" (.change .null) .nil)) .nil),
    _errors := .obj (.cons "user.name" errRecord .nil),
    _content := .obj (.cons "user" (.obj (.cons "name" (.str "A") .nil)) .nil) }

/-- Store where the changes map has an own `user` entry but resolves nothing
at `user.name` (the staged edit is at `user.other`), while an error record
exists at `user.name`. -/
def exC6w : EmberChangeset :=
  { exC6 with
    _changes := .obj (.cons "user" (.obj (.cons "other" (.change (.str "x")) .nil)) .nil) }

/-- A validator that always fails. -/
def failValidator : Validator := fun _ _ _ => .str "is invalid"

/-- A proxy-wrapped store whose validator rejects everything. -/
def pFail : ProxyWrapper :=
  ⟨{ validateFn := failValidator, _changes := emptyObj, _errors := emptyObj,
     _content := .obj (.cons "name" (.str "Jim") .nil) }⟩

mutual
theorem JSValue.beq_refl : ∀ a : JSValue, JSValue.beq a a = true
  | .undef => rfl
  | .null => rfl
  | .bool b => by simp [JSValue.beq]
  | .num n => by simp [JSValue.beq]
  | .str s => by simp [JSValue.beq]
  | .fn => rfl
  | .arr xs => JSValue.beqList_refl xs
  | .obj fs => JSFields.beq_self fs
  | .change v => JSValue.beq_refl v

theorem JSValue.beqList_refl : ∀ xs : List JSValue, JSValue.beqList xs xs = true
  | [] => rfl
  | x :: xs => by
      simp [JSValue.beqList, JSValue.beq_refl x, JSValue.beqList_refl xs]

theorem JSFields.beq_self : ∀ fs : JSFields, JSFields.beq fs fs = true
  | .nil => rfl
  | .cons k v r => by
      simp [JSFields.beq, JSValue.beq_refl v, JSFields.beq_self r]
end

theorem JSValue.ne_of_beq_false {a b : JSValue} (h : JSValue.beq a b = false) :
    a ≠ b := by
  intro he
  subst he
  rw [JSValue.beq_refl a] at h
  cases h

/-- C1: for every changeset state, `execute()` performs the deep merge of
Content with Changes if and only if both `isValid` and `isDirty` hold (when
both hold `_content` becomes `mergeDeep _content _changes`; when either
fails the store is returned completely untouched), and in every case the
call returns the store itself — `execute` yields the store in both branches,
so the call is chainable even when it is a no-op. -/
theorem execute_merges_iff_valid_and_dirty (s : EmberChangeset) :
    ((s.isValid && s.isDirty) = true →
      s.execute = { s with _content := mergeDeep s._content s._changes }) ∧
    ((s.isValid && s.isDirty) = false → s.execute = s) := by
  constructor <;> intro h <;> simp [EmberChangeset.execute, h]

/-- Witness for C1: at `exDirty` (valid and dirty) the merge fires; at
`exInvalid` (an error is pending) `execute` is the identity. -/
theorem execute_merges_iff_valid_and_dirty_witness :
    exDirty.execute
        = { exDirty with _content := mergeDeep exDirty._content exDirty._changes } ∧
    exInvalid.execute = exInvalid :=
  ⟨(execute_merges_iff_valid_and_dirty exDirty).1 rfl,
   (execute_merges_iff_valid_and_dirty exInvalid).2 rfl⟩

/-- Counterexample to C2 as stated: `exDirty` is valid and dirty, so
`execute()` fires, yet afterwards the Changes map is exactly what it was —
in particular not empty.  The source's `execute` only reassigns `_content`
and never touches `_changes`. -/
theorem execute_does_not_clear_changes :
    exDirty.isValid = true ∧ exDirty.isDirty = true ∧
    (exDirty.execute)._changes = exDirty._changes ∧
    (exDirty.execute)._changes ≠ emptyObj :=
  ⟨rfl, rfl, rfl, JSValue.ne_of_beq_false rfl⟩

/-- C2 as amended: when `execute()` fires (`isValid` and `isDirty` both
hold), afterwards Content equals the deep merge of the prior Content with
the prior Changes, and the Changes map is left unchanged — populated, not
cleared (clearing is the caller's responsibility per the spec's §4.5). -/
theorem execute_fires_merges_and_keeps_changes (s : EmberChangeset)
    (hv : s.isValid = true) (hd : s.isDirty = true) :
    (s.execute)._content = mergeDeep s._content s._changes ∧
    (s.execute)._changes = s._changes := by
  simp [EmberChangeset.execute, hv, hd]

/-- Witness for the amended C2 at the valid-and-dirty store `exDirty`. -/
theorem execute_fires_merges_and_keeps_changes_witness :
    (exDirty.execute)._content = mergeDeep exDirty._content exDirty._changes ∧
    (exDirty.execute)._changes = exDirty._changes :=
  execute_fires_merges_and_keeps_changes exDirty rfl rfl

/-- C3: with Content `user = (name A, email a@x.com)` and a successful
`set('user.name', 'B')` staged, `get('user')` returns the synthesized object
`(name B, email a@x.com)` — the changed key wins and the unedited sibling is
taken from Content — while `Content.user` still holds the original object;
the synthesized object is a distinct fresh value, not the stored one.  In
the embedding `get` is a pure function of the store, so it can mutate
neither Content nor Changes by construction. -/
theorem get_user_sibling_merge :
    ex3.get "user"
        = .obj (.cons "name" (.str "B") (.cons "email" (.str "a@x.com") .nil)) ∧
    getProp ex3._content "user" = userObjA ∧
    ex3.get "user" ≠ getProp ex3._content "user" :=
  ⟨rfl, rfl, JSValue.ne_of_beq_false rfl⟩

/-- When the full key splits as `baseKey :: remaining`, the candidate `get`
resolves from the changes map is the deep read of the normalized sub-tree
for a dotted key, and the raw changes entry otherwise. -/
theorem candidateOf_eq (s : EmberChangeset) (key baseKey : String)
    (remaining : List String) (hsplit : splitDots key = baseKey :: remaining) :
    candidateOf s key =
      if remaining.length > 0 then
        safeGetPath (normalizeObject (getProp s._changes baseKey)) (joinDots remaining)
      else getProp s._changes baseKey := by
  unfold candidateOf
  rw [hsplit]
  simp [List.headD]

/-- With an own changes entry for the base key, `get` runs its changes
branch. -/
theorem get_eq_changesBranch (s : EmberChangeset) (key baseKey : String)
    (remaining : List String) (hsplit : splitDots key = baseKey :: remaining)
    (hown : hasOwnProperty s._changes baseKey = true) :
    s.get key = changesBranch s key baseKey remaining := by
  unfold EmberChangeset.get
  rw [hsplit]
  simp [List.headD, hown]

/-- When the candidate resolved from the changes map is an object, the early
non-object return of source lines 143–145 cannot fire, so `get` reduces to
the candidate-processing tail of its changes branch. -/
theorem get_eq_afterResult (s : EmberChangeset) (key baseKey : String)
    (remaining : List String) (hsplit : splitDots key = baseKey :: remaining)
    (hown : hasOwnProperty s._changes baseKey = true)
    (hobj : isObject (candidateOf s key) = true) :
    s.get key = afterResult s key baseKey remaining (candidateOf s key) := by
  rw [get_eq_changesBranch s key baseKey remaining hsplit hown]
  rw [candidateOf_eq s key baseKey remaining hsplit] at hobj ⊢
  cases remaining with
  | nil => simp [changesBranch]
  | cons r rs =>
      simp only [changesBranch, List.length_cons]
      simp only [Nat.zero_lt_succ, if_pos, gt_iff_lt] at *
      simp at hobj ⊢
      rw [hobj]
      simp

/-- C4: when `get(path)` resolves a defined non-null object candidate from
the Changes map, the sibling merge with Content's sub-object is synthesized
only when the candidate is not an array, Content's sub-object at the path is
a plain object, that sub-object is not a one-to-one-relationship
placeholder, and the path is not a registered leaf change (and Content's
sub-object has keys); when the four-way condition fails — in particular for
relationship placeholders — `get` returns the normalized candidate as-is,
injecting none of Content's other fields. -/
theorem get_sibling_merge_conditions (s : EmberChangeset) (key baseKey : String)
    (remaining : List String)
    (hsplit : splitDots key = baseKey :: remaining)
    (hown : hasOwnProperty s._changes baseKey = true)
    (hdef : isUndef (candidateOf s key) = false)
    (hnull : isNull (candidateOf s key) = false)
    (hobj : isObject (candidateOf s key) = true) :
    ((!isArr (normalizeObject (candidateOf s key)) &&
        isObject (safeGetPath s._content key) &&
        !isBelongsToRelationship (safeGetPath s._content key) &&
        !isLeafInChanges key s._changes) = false →
      s.get key = normalizeObject (candidateOf s key)) ∧
    ((!isArr (normalizeObject (candidateOf s key)) &&
        isObject (safeGetPath s._content key) &&
        !isBelongsToRelationship (safeGetPath s._content key) &&
        !isLeafInChanges key s._changes) = true →
      (objKeys (safeGetPath s._content key)).isEmpty = false →
      s.get key = .obj (mergeSiblings s._content key
        (normalizeObject (candidateOf s key))
        (objKeys (safeGetPath s._content key)))) := by
  rw [get_eq_afterResult s key baseKey remaining hsplit hown hobj]
  constructor
  · intro hC
    simp [afterResult, hdef, hnull, hobj, hC]
  · intro hC hne
    simp [afterResult, hdef, hnull, hobj, hC, hne]

/-- Witness for C4 at `exRel`: `Content.owner` is a relationship placeholder
and only `owner.id` is staged, so `get('owner')` returns the normalized
candidate `(id 2)` without the placeholder's `secret` or marker fields. -/
theorem get_sibling_merge_conditions_witness :
    exRel.get "owner" = JSValue.obj (.cons "id" (.num 2) .nil) :=
  (get_sibling_merge_conditions exRel "owner" "owner" [] rfl rfl rfl rfl rfl).1 rfl

/-- Counterexample to C5 as stated: `exC5` has no pending change and no error
at the path `execute`, yet `get('execute')` returns the store's own method
(step 2 of the resolution order intercepts it) instead of
`safeGet(Content, 'execute')`, which is `42` here. -/
theorem get_intercepted_by_instance_member :
    hasOwnProperty exC5._changes "execute" = false ∧
    hasOwnProperty exC5._errors "execute" = false ∧
    exC5.get "execute" ≠ safeGetPath exC5._content "execute" :=
  ⟨rfl, rfl, JSValue.ne_of_beq_false rfl⟩

/-- C5 as amended: for every path with no own changes entry for its base key
and no error entry, and which the store's own surface does not intercept
(no defined instance property at the full key, no truthy instance property
at the base key), `get` returns exactly the unmodified deep read of
Content. -/
theorem get_no_change_no_surface_reads_content (s : EmberChangeset)
    (key baseKey : String) (remaining : List String)
    (hsplit : splitDots key = baseKey :: remaining)
    (hown : hasOwnProperty s._changes baseKey = false)
    (herr : hasOwnProperty s._errors key = false)
    (hkey : instanceProp s key = .undef)
    (hbase : truthy (instanceProp s baseKey) = false) :
    s.get key = safeGetPath s._content key := by
  unfold EmberChangeset.get
  rw [hsplit]
  simp [List.headD, hown, getFallthrough, hkey, hbase, isUndef]

/-- Witness for the amended C5: the untouched data path `age` reads straight
through to Content. -/
theorem get_no_change_no_surface_reads_content_witness :
    exC5w.get "age" = JSValue.num 10 :=
  get_no_change_no_surface_reads_content exC5w "age" "age" [] rfl rfl rfl rfl rfl

/-- Counterexample to C6 as stated: at `exC6` the changes map owns the base
key `user` and the candidate resolved for `user.name` is `null` — defined,
falsy, not an object — with an error record present at `user.name`; the
claim says such a call falls through to the deep read of Content (`'A'`),
but the source's early return (lines 143–145) yields the candidate `null`
itself. -/
theorem get_falsy_candidate_does_not_fall_through :
    hasOwnProperty exC6._changes "user" = true ∧
    hasOwnProperty exC6._errors "user.name" = true ∧
    isUndef (candidateOf exC6 "user.name") = false ∧
    truthy (candidateOf exC6 "user.name") = false ∧
    isObject (candidateOf exC6 "user.name") = false ∧
    exC6.get "user.name" ≠ safeGetPath exC6._content "user.name" :=
  ⟨rfl, rfl, rfl, rfl, rfl, JSValue.ne_of_beq_false rfl⟩

/-- C6 as amended: when the changes map has an own entry for the base key but
the candidate resolved from it is `undefined` — even if an error record
exists at the same path — `get` does not return the error's value; it falls
through to the later resolution steps, and (when the store's own surface
does not intercept the path) ultimately to the deep read of Content. -/
theorem get_undefined_candidate_falls_to_content (s : EmberChangeset)
    (key baseKey : String) (remaining : List String)
    (hsplit : splitDots key = baseKey :: remaining)
    (hown : hasOwnProperty s._changes baseKey = true)
    (hcand : candidateOf s key = .undef)
    (herr : hasOwnProperty s._errors key = true)
    (hkey : instanceProp s key = .undef)
    (hbase : truthy (instanceProp s baseKey) = false) :
    s.get key = safeGetPath s._content key := by
  rw [get_eq_changesBranch s key baseKey remaining hsplit hown]
  rw [candidateOf_eq s key baseKey remaining hsplit] at hcand
  cases remaining with
  | nil =>
      simp at hcand
      simp [changesBranch, afterResult, hcand, getFallthrough, hkey, isUndef,
        hbase, show truthy JSValue.undef = false from rfl]
  | cons r rs =>
      simp at hcand
      simp [changesBranch, afterResult, hcand, getFallthrough, hkey, isUndef,
        hbase, show truthy JSValue.undef = false from rfl]

/-- Witness for the amended C6: at `exC6w` the staged edit is `user.other`,
so the candidate for `user.name` is `undefined` while an error record exists
at `user.name`; `get('user.name')` returns Content's `'A'`, not the error's
value. -/
theorem get_undefined_candidate_falls_to_content_witness :
    exC6w.get "user.name" = JSValue.str "A" :=
  get_undefined_candidate_falls_to_content exC6w "user.name" "user" ["name"]
    rfl rfl rfl rfl rfl rfl

/-- Assigning a key always leaves it present afterwards. -/
theorem JSFields.hasKey_set_self :
    ∀ (fs : JSFields) (k : String) (v : JSValue), (fs.set k v).hasKey k = true
  | .nil, k, v => by simp [JSFields.set, JSFields.hasKey]
  | .cons k2 w r, k, v => by
      by_cases h : k2 = k <;>
        simp [JSFields.set, JSFields.hasKey, h, JSFields.hasKey_set_self r k v]

/-- C7: in each of the four mutating operations (`_setProperty`, `addError`,
`pushErrors`, `_deleteKey`), the storage mutation is completed before any
observer notification is emitted — the mutation steps form a prefix of the
operation's step sequence — and consequently every notified observer sees
exactly the final, post-mutation store state: the states recorded at the two
notifications both equal the state the operation ends in. -/
theorem mutation_completes_before_notification (s : EmberChangeset)
    (key objName : String) (value err : JSValue) (errs : List JSValue) :
    (stepsOrdered (setPropertySteps key value) = true ∧
      (runSteps s (setPropertySteps key value)).2.map Prod.snd
        = List.replicate 2 (runSteps s (setPropertySteps key value)).1) ∧
    (stepsOrdered (addErrorSteps key err) = true ∧
      (runSteps s (addErrorSteps key err)).2.map Prod.snd
        = List.replicate 2 (runSteps s (addErrorSteps key err)).1) ∧
    (stepsOrdered (pushErrorsSteps key errs) = true ∧
      (runSteps s (pushErrorsSteps key errs)).2.map Prod.snd
        = List.replicate 2 (runSteps s (pushErrorsSteps key errs)).1) ∧
    (stepsOrdered (deleteKeySteps objName key) = true ∧
      (runSteps s (deleteKeySteps objName key)).2.map Prod.snd
        = List.replicate 2 (runSteps s (deleteKeySteps objName key)).1) :=
  ⟨⟨rfl, rfl⟩, ⟨rfl, rfl⟩, ⟨rfl, rfl⟩, ⟨rfl, rfl⟩⟩

/-- C9: the `changeset` construction function fails its synchronous
assertions exactly when the content argument is absent (falsy) or is an
array; for every other content value — whatever validator, validation map
and options accompany it — it returns a store instance without raising. -/
theorem changeset_asserts_iff_missing_or_array (obj : JSValue) (vf : Validator)
    (vm : JSValue) (opts : ChangesetOpts) :
    (changeset obj vf vm opts).isOk = (truthy obj && !isArr obj) := by
  obtain ⟨alt⟩ := opts
  cases ht : truthy obj <;> cases ha : isArr obj <;> cases alt <;>
    simp [changeset, ht, ha, Except.isOk, Except.toBool]

/-- C10: a property assignment through the transparent `Proxy` wrapper
forwards to `store.set` with the key coerced to a string and the `set` trap
unconditionally returns `true` — so the assignment reports success even when
validation of the value fails (the failure is only recorded in the Errors
map) — and every property read through the wrapper returns `store.get` of
the stringified key. -/
theorem proxy_set_reports_true_and_forwards (p : ProxyWrapper) (key : PropKey)
    (value : JSValue) :
    (proxySetTrap p key value).2 = true ∧
    (proxySetTrap p key value).1.target = p.target.set key.toStr value ∧
    proxyGetTrap p key = p.target.get key.toStr ∧
    (isPlainObj p.target._errors = true →
      JSValue.beq (p.target.validateFn key.toStr value
        (safeGetPath p.target._content key.toStr)) (.bool true) = false →
      hasOwnProperty (proxySetTrap p key value).1.target._errors key.toStr = true) := by
  refine ⟨rfl, rfl, rfl, ?_⟩
  intro hobj hfail
  simp [proxySetTrap, EmberChangeset.set, hfail]
  cases he : p.target._errors <;> simp [he, isPlainObj] at hobj ⊢
  exact JSFields.hasKey_set_self _ _ _

/-- Witness for C10 at the always-failing validator: the trap still reports
`true` while the rejection lands in the Errors map. -/
theorem proxy_set_reports_true_and_forwards_witness :
    (proxySetTrap pFail (.strK "name") (.num 5)).2 = true ∧
    hasOwnProperty (proxySetTrap pFail (.strK "name") (.num 5)).1.target._errors
      "name" = true :=
  ⟨(proxy_set_reports_true_and_forwards pFail (.strK "name") (.num 5)).1,
   (proxy_set_reports_true_and_forwards pFail (.strK "name") (.num 5)).2.2.2 rfl rfl⟩


theorem JSFields.find_set_self :
    ∀ (fs : JSFields) (k : String) (v : JSValue), (fs.set k v).find k = some v
  | .nil, k, v => by simp [JSFields.set, JSFields.find]
  | .cons k2 w r, k, v => by
      by_cases h : k2 = k <;>
        simp [JSFields.set, JSFields.find, h, JSFields.find_set_self r k v]

theorem JSFields.find_set_ne :
    ∀ (fs : JSFields) (k k2 : String) (v : JSValue), k ≠ k2 →
      (fs.set k v).find k2 = fs.find k2
  | .nil, k, k2, v, h => by simp [JSFields.set, JSFields.find, h]
  | .cons k3 w r, k, k2, v, h => by
      by_cases h3 : k3 = k
      · subst h3
        simp [JSFields.set, JSFields.find, h]
      · simp [JSFields.set, JSFields.find, h3, JSFields.find_set_ne r k k2 v h]

theorem JSFields.hasKey_set :
    ∀ (fs : JSFields) (k k2 : String) (v : JSValue),
      (fs.set k v).hasKey k2 = (decide (k = k2) || fs.hasKey k2)
  | .nil, k, k2, v => by simp [JSFields.set, JSFields.hasKey]
  | .cons k3 w r, k, k2, v => by
      by_cases h3 : k3 = k
      · subst h3
        by_cases h : k3 = k2 <;> simp [JSFields.set, JSFields.hasKey, h]
      · simp only [JSFields.set, h3, if_neg, JSFields.hasKey,
          JSFields.hasKey_set r k k2 v]
        cases decide (k3 = k2) <;> cases decide (k = k2) <;> simp

theorem JSFields.find_isSome_of_hasKey :
    ∀ (fs : JSFields) (k : String), fs.hasKey k = true → (fs.find k).isSome = true
  | .nil, k, h => by simp [JSFields.hasKey] at h
  | .cons k2 w r, k, h => by
      by_cases h2 : k2 = k
      · simp [JSFields.find, h2]
      · simp [JSFields.hasKey, h2] at h
        simp [JSFields.find, h2, JSFields.find_isSome_of_hasKey r k h]

theorem JSFields.set_find_same :
    ∀ (fs : JSFields) (k : String) (v : JSValue),
      fs.find k = some v → fs.set k v = fs
  | .nil, k, v, h => by simp [JSFields.find] at h
  | .cons k2 w r, k, v, h => by
      by_cases h2 : k2 = k
      · subst h2
        simp [JSFields.find] at h
        simp [JSFields.set, h]
      · simp [JSFields.find, h2] at h
        simp [JSFields.set, h2, JSFields.set_find_same r k v h]

theorem wfFields_find :
    ∀ (fs : JSFields) (k : String) (v : JSValue),
      wfFields fs = true → fs.find k = some v → wfVal v = true
  | .nil, k, v, _, h => by simp [JSFields.find] at h
  | .cons k2 w r, k, v, hwf, h => by
      simp only [wfFields, Bool.and_eq_true] at hwf
      obtain ⟨⟨hk, hw⟩, hr⟩ := hwf
      by_cases h2 : k2 = k
      · simp [JSFields.find, h2] at h
        exact h ▸ hw
      · simp [JSFields.find, h2] at h
        exact wfFields_find r k v hr h

theorem wfFields_set :
    ∀ (fs : JSFields) (k : String) (v : JSValue),
      wfFields fs = true → wfVal v = true → wfFields (fs.set k v) = true
  | .nil, k, v, _, hv => by simp [JSFields.set, wfFields, JSFields.hasKey, hv]
  | .cons k2 w r, k, v, hwf, hv => by
      simp only [wfFields, Bool.and_eq_true] at hwf
      obtain ⟨⟨hk, hw⟩, hr⟩ := hwf
      by_cases h2 : k2 = k
      · subst h2
        simp [JSFields.set, wfFields, hv, hk, hr]
      · simp only [JSFields.set, h2, if_neg, ne_eq, not_false_eq_true, wfFields,
          Bool.and_eq_true]
        refine ⟨⟨?_, hw⟩, wfFields_set r k v hr hv⟩
        rw [JSFields.hasKey_set r k k2 v]
        have hk2 : r.hasKey k2 = false := by simpa using hk
        have hne : (k = k2) = False := eq_false fun he => h2 he.symm
        simp [hk2, hne]


theorem getProp_setProp_ne (d : JSValue) (k k2 : String) (v : JSValue)
    (h : k ≠ k2) : getProp (setProp d k v) k2 = getProp d k2 := by
  cases d <;> simp [setProp, getProp, JSValue.fieldsOf, JSFields.find_set_ne _ k k2 v h]

theorem setProp_same (d : JSValue) (k : String) (v : JSValue)
    (hhas : hasOwnProperty d k = true) (hval : getProp d k = v) :
    setProp d k v = d := by
  cases d <;> simp [hasOwnProperty, JSValue.fieldsOf, JSFields.hasKey] at hhas
  case obj fs =>
    have hsome := JSFields.find_isSome_of_hasKey fs k hhas
    obtain ⟨w, hw⟩ := Option.isSome_iff_exists.mp hsome
    have : w = v := by simpa [getProp, JSValue.fieldsOf, hw] using hval
    subst this
    simp [setProp, JSFields.set_find_same fs k w hw]

theorem hasOwn_setProp_mono (d : JSValue) (k k2 : String) (v : JSValue)
    (h : hasOwnProperty d k2 = true) :
    hasOwnProperty (setProp d k v) k2 = true := by
  cases d <;> simp [hasOwnProperty, JSValue.fieldsOf, JSFields.hasKey] at h ⊢
  case obj fs =>
    simp [setProp, JSValue.fieldsOf, JSFields.hasKey_set fs k k2 v, h]

theorem wf_getProp (d : JSValue) (k : String) (h : wfVal d = true) :
    wfVal (getProp d k) = true := by
  cases d <;> simp [getProp, JSValue.fieldsOf, JSFields.find, wfVal]
  case obj fs =>
    cases hf : fs.find k with
    | none => simp [wfVal]
    | some v =>
        simp only [Option.getD_some]
        exact wfFields_find fs k v (by simpa [wfVal] using h) hf

theorem wf_setProp (d : JSValue) (k : String) (v : JSValue)
    (hd : wfVal d = true) (hv : wfVal v = true) :
    wfVal (setProp d k v) = true := by
  cases d <;> simp [setProp, wfVal] at hd ⊢ <;> try assumption
  case obj fs => exact wfFields_set fs k v hd hv

theorem mergeFields_nonobj :
    ∀ (l : JSFields) (d : JSValue), isPlainObj d = false → mergeFields d l = d
  | .nil, d, h => by simp [mergeFields]
  | .cons k sv rest, d, h => by
      have hset : ∀ w : JSValue, setProp d k w = d := by
        intro w
        cases d <;> first | rfl | (simp [isPlainObj] at h)
      simp only [mergeFields, hset]
      exact mergeFields_nonobj rest d h

theorem mergeDeep_nonobj (d s : JSValue) (h : isPlainObj d = false) :
    mergeDeep d s = d := by
  cases s <;> simp [mergeDeep]
  case obj sfs => exact mergeFields_nonobj sfs d h

theorem mergeFields_plainobj :
    ∀ (l : JSFields) (fs : JSFields), isPlainObj (mergeFields (.obj fs) l) = true
  | .nil, fs => by simp [mergeFields, isPlainObj]
  | .cons k sv rest, fs => by
      simp only [mergeFields, setProp]
      exact mergeFields_plainobj rest _

theorem getProp_mergeFields_not_hasKey :
    ∀ (l : JSFields) (d : JSValue) (k : String), l.hasKey k = false →
      getProp (mergeFields d l) k = getProp d k
  | .nil, d, k, _ => rfl
  | .cons k2 sv rest, d, k, h => by
      simp only [JSFields.hasKey, Bool.or_eq_false_iff] at h
      have hne : k2 ≠ k := by
        intro he
        simp [he] at h
      simp only [mergeFields]
      rw [getProp_mergeFields_not_hasKey rest _ k h.2]
      exact getProp_setProp_ne d k2 k _ hne

theorem hasOwn_mergeFields_mono :
    ∀ (l : JSFields) (d : JSValue) (k : String), hasOwnProperty d k = true →
      hasOwnProperty (mergeFields d l) k = true
  | .nil, d, k, h => h
  | .cons k2 sv rest, d, k, h => by
      simp only [mergeFields]
      exact hasOwn_mergeFields_mono rest _ k (hasOwn_setProp_mono d k2 k _ h)


theorem mergeDeep_nonobj_src (src d : JSValue) (h : isPlainObj src = false) :
    mergeDeep d src = d := by
  cases src <;> first | rfl | simp [isPlainObj] at h

mutual
theorem wf_mergeDeep : ∀ (src d : JSValue), wfVal d = true → wfVal src = true →
    wfVal (mergeDeep d src) = true
  | .obj sfs, d, hd, hs => by
      simp only [mergeDeep]
      exact wf_mergeFields sfs d hd (by simpa [wfVal] using hs)
  | .undef, d, hd, _ => hd
  | .null, d, hd, _ => hd
  | .bool b, d, hd, _ => hd
  | .num n, d, hd, _ => hd
  | .str t, d, hd, _ => hd
  | .fn, d, hd, _ => hd
  | .arr xs, d, hd, _ => hd
  | .change v, d, hd, _ => hd

theorem wf_mergeFields : ∀ (l : JSFields) (d : JSValue), wfVal d = true →
    wfFields l = true → wfVal (mergeFields d l) = true
  | .nil, d, hd, _ => hd
  | .cons k sv rest, d, hd, hl => by
      simp only [wfFields, Bool.and_eq_true] at hl
      obtain ⟨⟨hk, hsv⟩, hrest⟩ := hl
      simp only [mergeFields]
      refine wf_mergeFields rest _ ?_ hrest
      refine wf_setProp d k _ hd ?_
      by_cases hg : (isObject (getProp d k) && isObject sv) = true
      · simp only [hg, if_true]
        exact wf_mergeDeep sv (getProp d k) (wf_getProp d k hd) hsv
      · simp only [Bool.not_eq_true] at hg
        simp only [hg, Bool.false_eq_true, if_false]
        exact hsv
end

theorem entriesMatch_transfer :
    ∀ (l : JSFields) (d d2 : JSValue),
      (∀ k, l.hasKey k = true →
        hasOwnProperty d2 k = hasOwnProperty d k ∧ getProp d2 k = getProp d k) →
      EntriesMatch l d → EntriesMatch l d2
  | .nil, d, d2, _, _ => trivial
  | .cons k sv rest, d, d2, htr, hm => by
      obtain ⟨hhas, hval, hrest⟩ := hm
      have hk : (JSFields.cons k sv rest).hasKey k = true := by
        simp [JSFields.hasKey]
      refine ⟨(htr k hk).1.trans hhas, (htr k hk).2.trans hval, ?_⟩
      refine entriesMatch_transfer rest d d2 ?_ hrest
      intro k2 hk2
      exact htr k2 (by simp [JSFields.hasKey, hk2])

theorem entriesMatch_self :
    ∀ (fs : JSFields), wfFields fs = true → EntriesMatch fs (.obj fs)
  | .nil, _ => trivial
  | .cons k v rest, hwf => by
      simp only [wfFields, Bool.and_eq_true] at hwf
      obtain ⟨⟨hk, hv⟩, hrest⟩ := hwf
      have hk2 : rest.hasKey k = false := by simpa using hk
      refine ⟨?_, ?_, ?_⟩
      · simp [hasOwnProperty, JSValue.fieldsOf, JSFields.hasKey]
      · simp [getProp, JSValue.fieldsOf, JSFields.find]
      · refine entriesMatch_transfer rest (.obj rest) _ ?_ (entriesMatch_self rest hrest)
        intro k2 hkk
        have hne : k ≠ k2 := by
          intro he
          subst he
          rw [hkk] at hk2
          cases hk2
        constructor
        · simp [hasOwnProperty, JSValue.fieldsOf, JSFields.hasKey, hne]
        · simp [getProp, JSValue.fieldsOf, JSFields.find, hne]


mutual
theorem mergeDeep_self : ∀ (v : JSValue), wfVal v = true → mergeDeep v v = v
  | .obj fs, h => by
      simp only [mergeDeep]
      exact mergeFields_fixpoint fs (.obj fs) h
        (entriesMatch_self fs (by simpa [wfVal] using h))
  | .undef, _ => rfl
  | .null, _ => rfl
  | .bool b, _ => rfl
  | .num n, _ => rfl
  | .str t, _ => rfl
  | .fn, _ => rfl
  | .arr xs, _ => rfl
  | .change v, _ => rfl

theorem mergeFields_fixpoint : ∀ (l : JSFields) (d : JSValue), wfVal d = true →
    EntriesMatch l d → mergeFields d l = d
  | .nil, d, _, _ => rfl
  | .cons k sv rest, d, hd, hm => by
      obtain ⟨hhas, hval, hrest⟩ := hm
      simp only [mergeFields]
      have hsv : wfVal sv = true := hval ▸ wf_getProp d k hd
      have hnewv :
          (if isObject (getProp d k) && isObject sv then
            mergeDeep (getProp d k) sv else sv) = sv := by
        rw [hval]
        by_cases hg : isObject sv
        · simp only [hg, Bool.and_self, if_true]
          exact mergeDeep_self sv hsv
        · simp only [Bool.not_eq_true] at hg
          simp [hg]
      rw [hnewv, setProp_same d k sv hhas hval]
      exact mergeFields_fixpoint rest d hd hrest
end


theorem exists_obj_of_isPlainObj (d : JSValue) (h : isPlainObj d = true) :
    ∃ fs, d = JSValue.obj fs := by
  cases d <;> first | exact ⟨_, rfl⟩ | simp [isPlainObj] at h

theorem isObject_of_isPlainObj (d : JSValue) (h : isPlainObj d = true) :
    isObject d = true := by
  cases d <;> simp [isPlainObj, isObject] at h ⊢

theorem getProp_setProp_self_obj (fs : JSFields) (k : String) (v : JSValue) :
    getProp (setProp (.obj fs) k v) k = v := by
  simp [setProp, getProp, JSValue.fieldsOf, JSFields.find_set_self fs k v]

mutual
theorem mergeDeep_idem : ∀ (src d : JSValue), wfVal d = true → wfVal src = true →
    mergeDeep (mergeDeep d src) src = mergeDeep d src
  | .obj sfs, d, hd, hs => by
      simp only [mergeDeep]
      exact mergeFields_idem sfs d hd (by simpa [wfVal] using hs)
  | .undef, d, _, _ => rfl
  | .null, d, _, _ => rfl
  | .bool b, d, _, _ => rfl
  | .num n, d, _, _ => rfl
  | .str t, d, _, _ => rfl
  | .fn, d, _, _ => rfl
  | .arr xs, d, _, _ => rfl
  | .change v, d, _, _ => rfl

theorem mergeFields_idem : ∀ (l : JSFields) (d : JSValue), wfVal d = true →
    wfFields l = true → mergeFields (mergeFields d l) l = mergeFields d l
  | .nil, d, _, _ => rfl
  | .cons k sv rest, d, hd, hl => by
      simp only [wfFields, Bool.and_eq_true] at hl
      obtain ⟨⟨hkr, hsv⟩, hrest⟩ := hl
      have hkrest : rest.hasKey k = false := by simpa using hkr
      by_cases hpo : isPlainObj d = true
      · obtain ⟨fs, rfl⟩ := exists_obj_of_isPlainObj d hpo
        have hwwf : wfVal (if isObject (getProp (JSValue.obj fs) k) && isObject sv
            then mergeDeep (getProp (JSValue.obj fs) k) sv else sv) = true := by
          by_cases hg : (isObject (getProp (JSValue.obj fs) k) && isObject sv) = true
          · simp only [hg, if_true]
            exact wf_mergeDeep sv _ (wf_getProp _ k hd) hsv
          · simp only [Bool.not_eq_true] at hg
            simp only [hg, Bool.false_eq_true, if_false]
            exact hsv
        have hRk : getProp (mergeFields (setProp (JSValue.obj fs) k
              (if isObject (getProp (JSValue.obj fs) k) && isObject sv
                then mergeDeep (getProp (JSValue.obj fs) k) sv else sv)) rest) k
            = (if isObject (getProp (JSValue.obj fs) k) && isObject sv
                then mergeDeep (getProp (JSValue.obj fs) k) sv else sv) := by
          rw [getProp_mergeFields_not_hasKey rest _ k hkrest]
          exact getProp_setProp_self_obj fs k _
        have hhasR : hasOwnProperty (mergeFields (setProp (JSValue.obj fs) k
              (if isObject (getProp (JSValue.obj fs) k) && isObject sv
                then mergeDeep (getProp (JSValue.obj fs) k) sv else sv)) rest) k
            = true := by
          refine hasOwn_mergeFields_mono rest _ k ?_
          simp [setProp, hasOwnProperty, JSValue.fieldsOf, JSFields.hasKey_set_self]
        have hidem : (if isObject (if isObject (getProp (JSValue.obj fs) k) && isObject sv
              then mergeDeep (getProp (JSValue.obj fs) k) sv else sv) && isObject sv
            then mergeDeep (if isObject (getProp (JSValue.obj fs) k) && isObject sv
              then mergeDeep (getProp (JSValue.obj fs) k) sv else sv) sv
            else sv)
            = (if isObject (getProp (JSValue.obj fs) k) && isObject sv
                then mergeDeep (getProp (JSValue.obj fs) k) sv else sv) := by
          by_cases hg : (isObject (getProp (JSValue.obj fs) k) && isObject sv) = true
          · have hand := hg
            rw [Bool.and_eq_true] at hand
            obtain ⟨hiod, hios⟩ := hand
            simp only [hg, if_true]
            cases sv with
            | obj sfs2 =>
                cases hdv : getProp (JSValue.obj fs) k with
                | obj dfs =>
                    have hpw : isPlainObj (mergeDeep (JSValue.obj dfs) (.obj sfs2))
                        = true := by
                      simp only [mergeDeep]
                      exact mergeFields_plainobj sfs2 dfs
                    rw [isObject_of_isPlainObj _ hpw]
                    simp only [show isObject (JSValue.obj sfs2) = true from rfl,
                      Bool.and_self, if_true]
                    exact mergeDeep_idem (.obj sfs2) (.obj dfs)
                      (by rw [← hdv]; exact wf_getProp _ k hd) hsv
                | change x =>
                    have hcx : mergeDeep (JSValue.change x) (.obj sfs2)
                        = JSValue.change x := by
                      simp only [mergeDeep]
                      exact mergeFields_nonobj sfs2 _ rfl
                    rw [hcx]
                    simp [isObject, hcx]
                | undef => rw [hdv] at hiod; simp [isObject] at hiod
                | null => rw [hdv] at hiod; simp [isObject] at hiod
                | bool b => rw [hdv] at hiod; simp [isObject] at hiod
                | num n => rw [hdv] at hiod; simp [isObject] at hiod
                | str t => rw [hdv] at hiod; simp [isObject] at hiod
                | fn => rw [hdv] at hiod; simp [isObject] at hiod
                | arr xs => rw [hdv] at hiod; simp [isObject] at hiod
            | change y =>
                show (if (isObject (getProp (JSValue.obj fs) k) &&
                      isObject (JSValue.change y)) = true
                    then mergeDeep (getProp (JSValue.obj fs) k) (JSValue.change y)
                    else JSValue.change y)
                  = mergeDeep (getProp (JSValue.obj fs) k) (JSValue.change y)
                simp [hiod, show isObject (JSValue.change y) = true from rfl]
            | undef => simp [isObject] at hios
            | null => simp [isObject] at hios
            | bool b => simp [isObject] at hios
            | num n => simp [isObject] at hios
            | str t => simp [isObject] at hios
            | fn => simp [isObject] at hios
            | arr xs => simp [isObject] at hios
          · simp only [Bool.not_eq_true] at hg
            simp only [hg, Bool.false_eq_true, if_false]
            by_cases hio : isObject sv = true
            · simp only [hio, Bool.and_self, if_true]
              exact mergeDeep_self sv hsv
            · simp only [Bool.not_eq_true] at hio
              simp only [hio, Bool.and_false, Bool.false_eq_true, if_false]
        simp only [mergeFields]
        rw [hRk, hidem, setProp_same _ k _ hhasR hRk]
        exact mergeFields_idem rest _ (wf_setProp _ k _ hd hwwf) hrest
      · have hfalse : isPlainObj d = false := by simpa using hpo
        have h1 := mergeFields_nonobj (JSFields.cons k sv rest) d hfalse
        rw [h1, h1]
end


/-- C8: calling `execute()` twice in a row with no intervening `set` performs
the deep merge at most once meaningfully.  The implementation does not
auto-clear Changes, so the claim's second disjunct applies: merging the
identical Changes into the already-merged Content is idempotent
(`mergeDeep (mergeDeep C D) D = mergeDeep C D`, proved in
`mergeDeep_idem`), hence the second `execute` leaves the store exactly as
the first left it.  Well-formedness asks only that the JavaScript objects
involved bind each key once, which every runtime object does. -/
theorem execute_idempotent (s : EmberChangeset) (hc : wfVal s._content = true)
    (hch : wfVal s._changes = true) : s.execute.execute = s.execute := by
  unfold EmberChangeset.execute
  by_cases hg : (s.isValid && s.isDirty) = true
  · simp only [hg, if_true]
    have hv : ({ s with _content := mergeDeep s._content s._changes } :
        EmberChangeset).isValid = s.isValid := rfl
    have hdd : ({ s with _content := mergeDeep s._content s._changes } :
        EmberChangeset).isDirty = s.isDirty := rfl
    simp only [hv, hdd, hg, if_true]
    exact congrArg (fun c => { s with _content := c })
      (mergeDeep_idem s._changes s._content hc hch)
  · have hf : (s.isValid && s.isDirty) = false := by simpa using hg
    simp [hf]

/-- Witness for C8 at the valid-and-dirty store `exDirty`. -/
theorem execute_idempotent_witness : exDirty.execute.execute = exDirty.execute :=
  execute_idempotent exDirty rfl rfl


end EmberChangesetModel
